import Mathlib

/-!
# Verification of `vegpacker` (`src/vp.c`)

Shallow embedding of the two algorithmic components of `vp.c`:

* `compute_min_width` — the Width Solver: for a `(radius, height, count)`
  triple it evaluates three circle-packing strategies (flat-topped hex,
  pointy-topped hex, regular grid) and returns the minimum width.
* `adjust_best_widths` — the Strip Splitter: widths larger than the
  large-rectangle capacity are cut into full-capacity pieces plus a
  positive remainder.
* `pack_rectangles` — the Strip Binner: first-fit-decreasing bin packing
  of strip widths into fixed-capacity large rectangles.

C `double` arithmetic is modelled by exact real arithmetic on `ℝ`; a C
`(int)` cast of a nonnegative value truncates toward zero, which on
nonnegative reals is the floor, so such casts are modelled by `Int.floor`.
C `int` division truncates toward zero and is modelled by `Int.tdiv`.
The `while` loops of the Width Solver are modelled by fuel-indexed
recursion returning `Option` (`none` = the fuel ran out), so that
statements about non-termination of the C loops can be expressed as
`= none` for every fuel.
-/

namespace VP

/-- The three packing strategies of the Width Solver. -/
inductive Strategy
  | Grid
  | FlatHex
  | PointyHex
deriving DecidableEq

/-- Line 32 of `vp.c`: `int rows_flat = (int)(h / (2 * r));`. -/
noncomputable def rows_flat (r h : ℝ) : ℤ := ⌊h / (2 * r)⌋

/-- Lines 37–40 of `vp.c`: the capacity recomputation of the flat-topped
loop body. Row `i` (0-based) contributes `(int)(width / (2*r))` circles
when `i` is even and `(int)((width - r) / (2*r))` when `i` is odd; the
`for` loop runs for `0 ≤ i < rows`, hence `Finset.range rows.toNat`. -/
noncomputable def total_circles_flat (r : ℝ) (rows : ℤ) (width : ℝ) : ℤ :=
  ∑ i in Finset.range rows.toNat,
    if i % 2 = 0 then ⌊width / (2 * r)⌋ else ⌊(width - r) / (2 * r)⌋

/-- Lines 35–41 of `vp.c`: the flat-topped growth loop
`while (total < n) { width += 2*r; total = recompute(width); }`,
with explicit fuel. The state is `(width, total)`; entry state is `(0, 0)`. -/
noncomputable def flat_loop (r : ℝ) (rows n : ℤ) : ℕ → ℝ → ℤ → Option ℝ
  | 0, _, _ => none
  | fuel + 1, width, total =>
    if total < n then
      flat_loop r rows n fuel (width + 2 * r) (total_circles_flat r rows (width + 2 * r))
    else some width

/-- The flat-topped strategy width: run `flat_loop` from the entry state. -/
noncomputable def width_flat (r h : ℝ) (n : ℤ) (fuel : ℕ) : Option ℝ :=
  flat_loop r (rows_flat r h) n fuel 0 0

/-- Line 44 of `vp.c`: `int rows_pointy = (int)(h / (sqrt(3) * r));`. -/
noncomputable def rows_pointy (r h : ℝ) : ℤ := ⌊h / (Real.sqrt 3 * r)⌋

/-- Lines 48–51 of `vp.c`: the capacity of `columns` pointy-topped columns.
Column `i` (0-based) contributes `rows` circles when `i` is even, and
`rows - 1` (clamped at `0` when `rows ≤ 0`) when `i` is odd. -/
def total_circles_pointy (rows : ℤ) (columns : ℕ) : ℤ :=
  ∑ i in Finset.range columns,
    if i % 2 = 0 then rows else (if 0 < rows then rows - 1 else 0)

/-- Lines 47–53 of `vp.c`: the pointy-topped growth loop
`while (total < n) { total = recompute(columns); columns++; }`,
with explicit fuel; returns the exit value of `columns_pointy`.
The state is `(columns, total)`; entry state is `(1, 0)`. -/
def pointy_loop (rows n : ℤ) : ℕ → ℕ → ℤ → Option ℕ
  | 0, _, _ => none
  | fuel + 1, columns, total =>
    if total < n then
      pointy_loop rows n fuel (columns + 1) (total_circles_pointy rows columns)
    else some columns

/-- Line 54 of `vp.c`: the pointy-topped width computed from the exit value
of `columns_pointy`:
`(columns == 1) ? 2*r : (2*r + (columns - 2) * r * sqrt(3))`. -/
noncomputable def width_pointy_of (r : ℝ) (columns : ℕ) : ℝ :=
  if columns = 1 then 2 * r else 2 * r + ((columns : ℝ) - 2) * r * Real.sqrt 3

/-- The pointy-topped strategy width: run `pointy_loop` from the entry
state and convert the exit column count to a width. -/
noncomputable def width_pointy (r h : ℝ) (n : ℤ) (fuel : ℕ) : Option ℝ :=
  (pointy_loop (rows_pointy r h) n fuel 1 0).map (width_pointy_of r)

/-- Lines 57–58 of `vp.c`: `int rows_regular = (int)(h / (2 * r));`
followed by the clamp `if (rows_regular < 1) rows_regular = 1;`. -/
noncomputable def rows_regular (r h : ℝ) : ℤ :=
  if ⌊h / (2 * r)⌋ < 1 then 1 else ⌊h / (2 * r)⌋

/-- Line 59 of `vp.c`: the ceiling division
`(n + rows_regular - 1) / rows_regular` with C (truncating) `int` division. -/
noncomputable def columns_regular (r h : ℝ) (n : ℤ) : ℤ :=
  Int.tdiv (n + rows_regular r h - 1) (rows_regular r h)

/-- Line 60 of `vp.c`: `double width_regular = 2 * r * columns_regular;`. -/
noncomputable def width_regular (r h : ℝ) (n : ℤ) : ℝ :=
  2 * r * (columns_regular r h n : ℝ)

/-- Lines 26–63 of `vp.c`: the Width Solver. Runs the two growth loops
(with the given fuel) and, when both produce a width, returns
`fmin(fmin(width_flat, width_pointy), width_regular)` (line 63); on
non-NaN doubles `fmin` is `min`. -/
noncomputable def compute_min_width (r h : ℝ) (n : ℤ) (fuel : ℕ) : Option ℝ :=
  match width_flat r h n fuel, width_pointy r h n fuel with
  | some wf, some wp => some (min (min wf wp) (width_regular r h n))
  | _, _ => none

/-- Lines 69–87 of `vp.c`: the reported winning strategy.
`smallest_width` is set to `1` (FlatHex) when
`width_flat < width_pointy && width_flat < width_regular`, to `2`
(PointyHex) when `width_pointy < width_flat && width_pointy < width_regular`,
and stays `0` (Grid) otherwise. -/
noncomputable def reported_strategy (w_flat w_pointy w_regular : ℝ) : Strategy :=
  if w_flat < w_pointy ∧ w_flat < w_regular then Strategy.FlatHex
  else if w_pointy < w_flat ∧ w_pointy < w_regular then Strategy.PointyHex
  else Strategy.Grid

/-- Lines 150–163 of `vp.c` (loop body of `adjust_best_widths`): splitting
of a single width. When `w > cap`, `parts = (int)(w / cap)` pieces of size
`cap` are emitted, then the remainder `w - parts * cap` is emitted only
when it is strictly positive; otherwise `w` is emitted unchanged. -/
noncomputable def split_width (cap w : ℝ) : List ℝ :=
  if w > cap then
    List.replicate (⌊w / cap⌋.toNat) cap ++
      (if w - (⌊w / cap⌋ : ℝ) * cap > 0 then [w - (⌊w / cap⌋ : ℝ) * cap] else [])
  else [w]

/-- Lines 143–170 of `vp.c`: `adjust_best_widths` writes, for each input
width in order, its split pieces consecutively into the output array. -/
noncomputable def adjust_best_widths (cap : ℝ) : List ℝ → List ℝ
  | [] => []
  | w :: ws => split_width cap w ++ adjust_best_widths cap ws

/-- A large rectangle of `pack_rectangles`: its placed strip widths in
placement order (`packed_rects[i]`) and its remaining space
(`remaining_space[i]`). -/
structure Rect where
  contents : List ℝ
  remaining : ℝ

/-- Lines 103–122 of `vp.c`: place one strip first-fit. The existing large
rectangles are scanned in creation order and the strip goes into the first
one with `remaining ≥ s`; when none fits, a new rectangle with
`remaining = cap - s` is appended. -/
noncomputable def place_strip (cap : ℝ) : List Rect → ℝ → List Rect
  | [], s => [⟨[s], cap - s⟩]
  | rect :: rects, s =>
    if rect.remaining ≥ s then
      ⟨rect.contents ++ [s], rect.remaining - s⟩ :: rects
    else rect :: place_strip cap rects s

/-- Line 92 of `vp.c`: `qsort(small_widths, ..., compare_desc)` sorts the
strip widths in descending order; modelled by insertion sort with `≥`
(which values to place where is determined by the values alone, and for
reals equal keys are identical, so any descending sort yields this list). -/
noncomputable def sort_desc (l : List ℝ) : List ℝ := List.insertionSort (· ≥ ·) l

/-- Lines 91–122 of `vp.c`: the Strip Binner — sort descending, then place
each strip first-fit in that order. -/
noncomputable def pack_rectangles (cap : ℝ) (strips : List ℝ) : List Rect :=
  (sort_desc strips).foldl (place_strip cap) []

/-- Lines 125–128 of `vp.c`: total wasted space, the sum of the remaining
space over all large rectangles. -/
noncomputable def total_waste (rects : List Rect) : ℝ :=
  (rects.map Rect.remaining).sum

/-- Line 132 of `vp.c`: the waste percentage
`100.0 * total_waste / (large_rect_count * LARGE_RECT_WIDTH)`. -/
noncomputable def waste_percent (cap : ℝ) (rects : List Rect) : ℝ :=
  100 * total_waste rects / ((rects.length : ℝ) * cap)

/-- The least number of flat-loop iterations whose capacity reaches `n`
(after `k` iterations the loop's width is `2*r*k`). Used to state that the
loop's result is the width at the first iteration reaching capacity. -/
noncomputable def flat_iterations_min (r h : ℝ) (n : ℤ) : ℕ :=
  sInf {k : ℕ | 1 ≤ k ∧ n ≤ total_circles_flat r (rows_flat r h) (2 * r * (k : ℝ))}

/-- The flat-topped strategy width, computed independently of the loop:
`2*r` times the first iteration count whose capacity reaches `n`. -/
noncomputable def flat_width_min (r h : ℝ) (n : ℤ) : ℝ :=
  2 * r * ((flat_iterations_min r h n : ℕ) : ℝ)

/-- The least pointy-topped column count whose capacity reaches `n`. -/
noncomputable def pointy_columns_min (r h : ℝ) (n : ℤ) : ℕ :=
  sInf {c : ℕ | 1 ≤ c ∧ n ≤ total_circles_pointy (rows_pointy r h) c}

/-- The pointy-topped strategy width computed independently of the loop:
with `K` the first column count whose capacity reaches `n`, the loop exits
with `columns_pointy = K + 1`, so line 54 yields
`2*r + ((K+1) - 2) * r * sqrt 3 = 2*r + (K-1) * r * sqrt 3`
(for `K = 1` this is `2*r`). -/
noncomputable def pointy_width_min (r h : ℝ) (n : ℤ) : ℝ :=
  2 * r + ((pointy_columns_min r h n : ℝ) - 1) * r * Real.sqrt 3

/-! ## Arithmetic helpers -/

lemma sqrt3_pos : 0 < Real.sqrt 3 := Real.sqrt_pos.mpr (by norm_num)

lemma one_lt_sqrt3 : 1 < Real.sqrt 3 := by
  rw [show (1 : ℝ) = Real.sqrt 1 from Real.sqrt_one.symm]
  exact Real.sqrt_lt_sqrt (by norm_num) (by norm_num)

lemma sqrt3_lt_two : Real.sqrt 3 < 2 := by
  have h4 : Real.sqrt 4 = 2 := by
    rw [show (4 : ℝ) = 2 ^ 2 by norm_num, Real.sqrt_sq (by norm_num : (0:ℝ) ≤ 2)]
  rw [← h4]
  exact Real.sqrt_lt_sqrt (by norm_num) (by norm_num)

/-- After `k` iterations the flat loop's width is `2*r*k`; an even row then
holds exactly `k` circles. -/
lemma floor_flat_even (r : ℝ) (hr : 0 < r) (k : ℕ) :
    ⌊(2 * r * (k : ℝ)) / (2 * r)⌋ = (k : ℤ) := by
  rw [show (2 * r * (k : ℝ)) / (2 * r) = (k : ℝ) by field_simp]
  exact Int.floor_natCast k

/-- After `k ≥ 1` iterations an odd row holds exactly `k - 1` circles. -/
lemma floor_flat_odd (r : ℝ) (hr : 0 < r) (k : ℕ) (hk : 1 ≤ k) :
    ⌊(2 * r * (k : ℝ) - r) / (2 * r)⌋ = (k : ℤ) - 1 := by
  rw [show (2 * r * (k : ℝ) - r) / (2 * r) = (k : ℝ) - 1 / 2 by field_simp; ring]
  rw [Int.floor_eq_iff]
  constructor
  · push_cast
    linarith
  · push_cast
    linarith

/-- Closed form of the flat capacity at the loop's width after `k ≥ 1`
iterations: `k` circles per even row, `k - 1` per odd row. -/
lemma total_circles_flat_eval (r : ℝ) (hr : 0 < r) (rows : ℤ) (k : ℕ) (hk : 1 ≤ k) :
    total_circles_flat r rows (2 * r * (k : ℝ)) =
      ∑ i in Finset.range rows.toNat, (if i % 2 = 0 then (k : ℤ) else (k : ℤ) - 1) := by
  unfold total_circles_flat
  refine Finset.sum_congr rfl fun i _ => ?_
  by_cases hi : i % 2 = 0
  · simp only [hi, if_true]
    exact floor_flat_even r hr k
  · simp only [hi, if_false]
    exact floor_flat_odd r hr k hk

/-- The flat capacity is monotone in the iteration count. -/
lemma total_circles_flat_mono (r : ℝ) (hr : 0 < r) (rows : ℤ) (k k' : ℕ)
    (hk : 1 ≤ k) (hkk : k ≤ k') :
    total_circles_flat r rows (2 * r * (k : ℝ)) ≤
      total_circles_flat r rows (2 * r * (k' : ℝ)) := by
  rw [total_circles_flat_eval r hr rows k hk, total_circles_flat_eval r hr rows k' (hk.trans hkk)]
  refine Finset.sum_le_sum fun i _ => ?_
  by_cases hi : i % 2 = 0 <;> simp [hi] <;> omega

/-- With at least one row, the flat capacity after `k ≥ 1` iterations is at
least `k` (row 0 alone holds `k` circles and no row holds a negative
number). -/
lemma total_circles_flat_lower (r : ℝ) (hr : 0 < r) (rows : ℤ) (hrows : 1 ≤ rows)
    (k : ℕ) (hk : 1 ≤ k) :
    (k : ℤ) ≤ total_circles_flat r rows (2 * r * (k : ℝ)) := by
  rw [total_circles_flat_eval r hr rows k hk]
  have hsub : ({0} : Finset ℕ) ⊆ Finset.range rows.toNat := by
    intro i hi
    simp only [Finset.mem_singleton] at hi
    subst hi
    simp only [Finset.mem_range]
    omega
  calc (k : ℤ) = ∑ i in ({0} : Finset ℕ), (if i % 2 = 0 then (k : ℤ) else (k : ℤ) - 1) := by
        simp
    _ ≤ ∑ i in Finset.range rows.toNat, (if i % 2 = 0 then (k : ℤ) else (k : ℤ) - 1) := by
        refine Finset.sum_le_sum_of_subset_of_nonneg hsub fun i _ _ => ?_
        by_cases hi : i % 2 = 0 <;> simp [hi] <;> omega

/-- With zero (or negatively counted) rows the flat capacity is identically
zero: the row loop body never runs. -/
lemma total_circles_flat_zero (r : ℝ) (rows : ℤ) (hrows : rows ≤ 0) (width : ℝ) :
    total_circles_flat r rows width = 0 := by
  unfold total_circles_flat
  have : rows.toNat = 0 := by omega
  simp [this]

/-- The pointy capacity is monotone in the column count when `rows ≥ 1`. -/
lemma total_circles_pointy_mono (rows : ℤ) (hrows : 1 ≤ rows) (c c' : ℕ) (hcc : c ≤ c') :
    total_circles_pointy rows c ≤ total_circles_pointy rows c' := by
  unfold total_circles_pointy
  refine Finset.sum_le_sum_of_subset_of_nonneg (Finset.range_subset.mpr hcc) fun i _ _ => ?_
  by_cases hi : i % 2 = 0 <;> simp [hi] <;> omega

/-- With at least one row, `2*m` pointy columns hold at least `m` circles. -/
lemma total_circles_pointy_lower (rows : ℤ) (hrows : 1 ≤ rows) (m : ℕ) :
    (m : ℤ) ≤ total_circles_pointy rows (2 * m) := by
  induction m with
  | zero => simp [total_circles_pointy]
  | succ m ih =>
      have hstep : total_circles_pointy rows (2 * (m + 1)) =
          total_circles_pointy rows (2 * m) +
            ((if (2 * m) % 2 = 0 then rows else (if 0 < rows then rows - 1 else 0)) +
             (if (2 * m + 1) % 2 = 0 then rows else (if 0 < rows then rows - 1 else 0))) := by
        unfold total_circles_pointy
        rw [show 2 * (m + 1) = (2 * m + 1) + 1 by ring, Finset.sum_range_succ,
          Finset.sum_range_succ]
        ring
      rw [hstep]
      have h1 : (2 * m) % 2 = 0 := by omega
      have h2 : ¬((2 * m + 1) % 2 = 0) := by omega
      simp only [h1, if_true, h2, if_false]
      push_cast
      have : (if 0 < rows then rows - 1 else 0) ≥ 0 := by
        by_cases h : 0 < rows <;> simp [h] <;> omega
      omega

/-! ## Loop correspondence lemmas -/

/-- If `K` is the first iteration count whose flat capacity reaches `n`,
then from any loop state reached after `j < K` iterations (whose recorded
total is still `< n`), the flat loop with more than `K - j` units of fuel
exits with width `2*r*K`. -/
lemma flat_loop_run (r : ℝ) (rows n : ℤ) (K : ℕ)
    (hKcap : n ≤ total_circles_flat r rows (2 * r * (K : ℝ)))
    (hmin : ∀ k : ℕ, 1 ≤ k → k < K → total_circles_flat r rows (2 * r * (k : ℝ)) < n) :
    ∀ fuel j t, j < K → t < n → K < j + fuel →
      flat_loop r rows n fuel (2 * r * (j : ℝ)) t = some (2 * r * (K : ℝ)) := by
  intro fuel
  induction fuel with
  | zero => intro j t hj ht hfuel; omega
  | succ fuel ih =>
      intro j t hj ht hfuel
      rw [flat_loop, if_pos ht,
        show 2 * r * (j : ℝ) + 2 * r = 2 * r * ((j + 1 : ℕ) : ℝ) by push_cast; ring]
      by_cases hjK : j + 1 = K
      · subst hjK
        obtain ⟨fuel', rfl⟩ : ∃ fuel', fuel = fuel' + 1 := ⟨fuel - 1, by omega⟩
        rw [flat_loop, if_neg (not_lt.mpr hKcap)]
      · have h1 : j + 1 < K := by omega
        exact ih (j + 1) _ h1 (hmin (j + 1) (by omega) h1) (by omega)

/-- Any width the flat loop returns (from a faithfully-recorded state whose
earlier iterations all fell short of `n`) is `2*r*K` for the first
iteration count `K` whose capacity reaches `n`. -/
lemma flat_loop_some (r : ℝ) (rows n : ℤ) (hn : 1 ≤ n) :
    ∀ (fuel j : ℕ) (t : ℤ) (w : ℝ),
      (j = 0 ∧ t = 0 ∨ 1 ≤ j ∧ t = total_circles_flat r rows (2 * r * (j : ℝ))) →
      (∀ k : ℕ, 1 ≤ k → k < j → total_circles_flat r rows (2 * r * (k : ℝ)) < n) →
      flat_loop r rows n fuel (2 * r * (j : ℝ)) t = some w →
      ∃ K : ℕ, 1 ≤ K ∧ n ≤ total_circles_flat r rows (2 * r * (K : ℝ)) ∧
        (∀ k : ℕ, 1 ≤ k → k < K → total_circles_flat r rows (2 * r * (k : ℝ)) < n) ∧
        w = 2 * r * (K : ℝ) := by
  intro fuel
  induction fuel with
  | zero => intro j t w _ _ h; exact absurd h (by rw [flat_loop]; exact Option.noConfusion)
  | succ fuel ih =>
      intro j t w hstate hpast hrun
      rw [flat_loop] at hrun
      by_cases ht : t < n
      · rw [if_pos ht,
          show 2 * r * (j : ℝ) + 2 * r = 2 * r * ((j + 1 : ℕ) : ℝ) by push_cast; ring] at hrun
        refine ih (j + 1) _ w (Or.inr ⟨by omega, rfl⟩) ?_ hrun
        intro k hk1 hkj
        rcases Nat.lt_or_ge k j with hkj' | hkj'
        · exact hpast k hk1 hkj'
        · have hkeq : k = j := by omega
          subst hkeq
          rcases hstate with ⟨hj0, _⟩ | ⟨_, ht'⟩
          · omega
          · rw [← ht']; exact ht
      · rw [if_neg ht, Option.some.injEq] at hrun
        rcases hstate with ⟨hj0, ht0⟩ | ⟨hj1, ht'⟩
        · subst hj0; subst ht0; omega
        · exact ⟨j, hj1, by rw [← ht']; omega, hpast, hrun.symm⟩

/-- With nonpositive `rows_flat` the flat capacity is always `0`, so for
`n ≥ 1` the flat loop never exits: every amount of fuel is exhausted. -/
lemma flat_loop_none (r : ℝ) (rows n : ℤ) (hrows : rows ≤ 0) (hn : 1 ≤ n) :
    ∀ fuel width, flat_loop r rows n fuel width 0 = none := by
  intro fuel
  induction fuel with
  | zero => intro width; rw [flat_loop]
  | succ fuel ih =>
      intro width
      rw [flat_loop, if_pos (by omega), total_circles_flat_zero r rows hrows]
      exact ih _

/-- If `K` is the first column count whose pointy capacity reaches `n`,
then from any loop state with `columns = j + 1`, `j < K`, whose recorded
total is still `< n`, the pointy loop with more than `K - j` units of fuel
exits with `columns_pointy = K + 1`. -/
lemma pointy_loop_run (rows n : ℤ) (K : ℕ)
    (hKcap : n ≤ total_circles_pointy rows K)
    (hmin : ∀ c : ℕ, 1 ≤ c → c < K → total_circles_pointy rows c < n) :
    ∀ fuel j t, j < K → t < n → K < j + fuel →
      pointy_loop rows n fuel (j + 1) t = some (K + 1) := by
  intro fuel
  induction fuel with
  | zero => intro j t hj ht hfuel; omega
  | succ fuel ih =>
      intro j t hj ht hfuel
      rw [pointy_loop, if_pos ht]
      by_cases hjK : j + 1 = K
      · subst hjK
        obtain ⟨fuel', rfl⟩ : ∃ fuel', fuel = fuel' + 1 := ⟨fuel - 1, by omega⟩
        rw [pointy_loop, if_neg (not_lt.mpr hKcap)]
      · have h1 : j + 1 < K := by omega
        exact ih (j + 1) (total_circles_pointy rows (j + 1)) h1
          (hmin (j + 1) (by omega) h1) (by omega)

/-- Any exit value the pointy loop returns (from a faithfully-recorded
state whose earlier column counts all fell short of `n`) is `K + 1` for
the first column count `K` whose capacity reaches `n`. -/
lemma pointy_loop_some (rows n : ℤ) (hn : 1 ≤ n) :
    ∀ (fuel j : ℕ) (t : ℤ) (c : ℕ),
      (j = 0 ∧ t = 0 ∨ 1 ≤ j ∧ t = total_circles_pointy rows j) →
      (∀ k : ℕ, 1 ≤ k → k < j → total_circles_pointy rows k < n) →
      pointy_loop rows n fuel (j + 1) t = some c →
      ∃ K : ℕ, 1 ≤ K ∧ n ≤ total_circles_pointy rows K ∧
        (∀ k : ℕ, 1 ≤ k → k < K → total_circles_pointy rows k < n) ∧
        c = K + 1 := by
  intro fuel
  induction fuel with
  | zero => intro j t c _ _ h; exact absurd h (by rw [pointy_loop]; exact Option.noConfusion)
  | succ fuel ih =>
      intro j t c hstate hpast hrun
      rw [pointy_loop] at hrun
      by_cases ht : t < n
      · rw [if_pos ht] at hrun
        rw [show j + 1 + 1 = (j + 1) + 1 by ring] at hrun
        refine ih (j + 1) _ c (Or.inr ⟨by omega, rfl⟩) ?_ hrun
        intro k hk1 hkj
        rcases Nat.lt_or_ge k j with hkj' | hkj'
        · exact hpast k hk1 hkj'
        · have hkeq : k = j := by omega
          subst hkeq
          rcases hstate with ⟨hj0, _⟩ | ⟨_, ht'⟩
          · omega
          · rw [← ht']; exact ht
      · rw [if_neg ht, Option.some.injEq] at hrun
        rcases hstate with ⟨hj0, ht0⟩ | ⟨hj1, ht'⟩
        · subst hj0; subst ht0; omega
        · exact ⟨j, hj1, by rw [← ht']; omega, hpast, hrun.symm⟩

/-- `sInf` of a set of naturals with a least element. -/
lemma sInf_eq_of_least {S : Set ℕ} {K : ℕ} (hK : K ∈ S) (hmin : ∀ k, k < K → k ∉ S) :
    sInf S = K := by
  have hle := Nat.sInf_le hK
  rcases lt_or_eq_of_le hle with hlt | heq
  · exact absurd (Nat.sInf_mem ⟨K, hK⟩) (hmin _ hlt)
  · exact heq

/-- Whatever fuel it is given, when the flat loop returns a width that
width is `2*r*K` for the first iteration count `K` reaching capacity `n`,
i.e. it equals `flat_width_min`. -/
lemma width_flat_eq_min (r h : ℝ) (n : ℤ) (hn : 1 ≤ n) (fuel : ℕ) (w : ℝ)
    (hrun : width_flat r h n fuel = some w) : w = flat_width_min r h n := by
  unfold width_flat at hrun
  rw [show (0 : ℝ) = 2 * r * ((0 : ℕ) : ℝ) by norm_num] at hrun
  obtain ⟨K, hK1, hKcap, hKmin, hw⟩ :=
    flat_loop_some r (rows_flat r h) n hn fuel 0 0 w (Or.inl ⟨rfl, rfl⟩)
      (fun k hk1 hk0 => absurd hk0 (by omega)) hrun
  have hS : sInf {k : ℕ | 1 ≤ k ∧
      n ≤ total_circles_flat r (rows_flat r h) (2 * r * (k : ℝ))} = K := by
    refine sInf_eq_of_least ⟨hK1, hKcap⟩ fun k hk hkS => ?_
    rcases hkS with ⟨hk1, hkcap⟩
    exact absurd hkcap (not_le.mpr (hKmin k hk1 hk))
  rw [hw]
  unfold flat_width_min flat_iterations_min
  rw [hS]

/-- Whatever fuel it is given, when the pointy loop returns a width that
width is the one determined by the first column count `K` reaching
capacity `n`, i.e. it equals `pointy_width_min`. -/
lemma width_pointy_eq_min (r h : ℝ) (n : ℤ) (hn : 1 ≤ n) (fuel : ℕ) (w : ℝ)
    (hrun : width_pointy r h n fuel = some w) : w = pointy_width_min r h n := by
  unfold width_pointy at hrun
  rcases Option.map_eq_some'.mp hrun with ⟨c, hc, hwc⟩
  rw [show (1 : ℕ) = 0 + 1 from rfl] at hc
  obtain ⟨K, hK1, hKcap, hKmin, hcK⟩ :=
    pointy_loop_some (rows_pointy r h) n hn fuel 0 0 c (Or.inl ⟨rfl, rfl⟩)
      (fun k hk1 hk0 => absurd hk0 (by omega)) hc
  have hS : pointy_columns_min r h n = K := by
    unfold pointy_columns_min
    refine sInf_eq_of_least ⟨hK1, hKcap⟩ fun k hk hkS => ?_
    rcases hkS with ⟨hk1, hkcap⟩
    exact absurd hkcap (not_le.mpr (hKmin k hk1 hk))
  subst hcK
  rw [← hwc]
  unfold width_pointy_of pointy_width_min
  rw [hS, if_neg (by omega)]
  push_cast
  ring

/-- With at least one flat row the flat loop terminates: any fuel beyond
the first capacity-reaching iteration count suffices. -/
lemma width_flat_terminates (r h : ℝ) (n : ℤ) (hr : 0 < r) (hn : 1 ≤ n)
    (hrows : 1 ≤ rows_flat r h) :
    ∃ fuel w, width_flat r h n fuel = some w := by
  set S : Set ℕ := {k : ℕ | 1 ≤ k ∧
    n ≤ total_circles_flat r (rows_flat r h) (2 * r * (k : ℝ))} with hSdef
  have hne : S.Nonempty := by
    refine ⟨n.toNat, ?_, ?_⟩
    · omega
    · have := total_circles_flat_lower r hr (rows_flat r h) hrows n.toNat (by omega)
      omega
  obtain ⟨hK1, hKcap⟩ := Nat.sInf_mem hne
  refine ⟨sInf S + 1, 2 * r * ((sInf S : ℕ) : ℝ), ?_⟩
  unfold width_flat
  rw [show (0 : ℝ) = 2 * r * ((0 : ℕ) : ℝ) by norm_num]
  refine flat_loop_run r (rows_flat r h) n (sInf S) hKcap ?_ (sInf S + 1) 0 0
    (by omega) (by omega) (by omega)
  intro k hk1 hkK
  have hknot := Nat.not_mem_of_lt_sInf hkK
  rw [hSdef] at hknot
  simp only [Set.mem_setOf_eq, not_and, not_le] at hknot
  exact hknot hk1

/-- With at least one pointy row the pointy loop terminates. -/
lemma pointy_loop_terminates (r h : ℝ) (n : ℤ) (hn : 1 ≤ n)
    (hrows : 1 ≤ rows_pointy r h) :
    ∃ fuel c, pointy_loop (rows_pointy r h) n fuel 1 0 = some c := by
  set S : Set ℕ := {c : ℕ | 1 ≤ c ∧ n ≤ total_circles_pointy (rows_pointy r h) c}
    with hSdef
  have hne : S.Nonempty := by
    refine ⟨2 * n.toNat, ?_, ?_⟩
    · omega
    · have := total_circles_pointy_lower (rows_pointy r h) hrows n.toNat
      omega
  obtain ⟨hK1, hKcap⟩ := Nat.sInf_mem hne
  refine ⟨sInf S + 1, sInf S + 1, ?_⟩
  rw [show (1 : ℕ) = 0 + 1 from rfl]
  refine pointy_loop_run (rows_pointy r h) n (sInf S) hKcap ?_ (sInf S + 1) 0 0
    (by omega) (by omega) (by omega)
  intro k hk1 hkK
  have hknot := Nat.not_mem_of_lt_sInf hkK
  rw [hSdef] at hknot
  simp only [Set.mem_setOf_eq, not_and, not_le] at hknot
  exact hknot hk1

/-! ## Concrete evaluations used by witnesses -/

lemma rows_flat_one_two : rows_flat 1 2 = 1 := by
  unfold rows_flat
  norm_num

lemma rows_pointy_one_two : rows_pointy 1 2 = 1 := by
  unfold rows_pointy
  rw [Int.floor_eq_iff]
  have h1 := one_lt_sqrt3
  have h2 := sqrt3_lt_two
  have h3 := sqrt3_pos
  constructor
  · push_cast
    rw [le_div_iff (by positivity)]
    nlinarith
  · push_cast
    rw [div_lt_iff (by positivity)]
    nlinarith

lemma total_circles_pointy_one : ∀ c : ℕ, c ≤ 3 →
    total_circles_pointy 1 c = if c ≤ 1 then (c : ℤ) else (c + 1) / 2 := by
  intro c hc
  interval_cases c <;> simp [total_circles_pointy, Finset.sum_range_succ] <;> decide

lemma width_flat_eval_one : width_flat 1 2 1 2 = some 2 := by
  unfold width_flat
  rw [rows_flat_one_two]
  rw [flat_loop, if_pos (by norm_num)]
  have hcap : total_circles_flat 1 1 (0 + 2 * 1) = 1 := by
    unfold total_circles_flat
    rw [Int.toNat_one, Finset.sum_range_one]
    norm_num
  rw [hcap, flat_loop, if_neg (by norm_num)]
  norm_num

lemma width_pointy_eval_one : width_pointy 1 2 1 2 = some 2 := by
  unfold width_pointy
  rw [rows_pointy_one_two]
  rw [pointy_loop, if_pos (by norm_num)]
  have hcap : total_circles_pointy 1 1 = 1 := by
    simpa using total_circles_pointy_one 1 (by norm_num)
  rw [hcap, pointy_loop, if_neg (by norm_num)]
  unfold width_pointy_of
  norm_num

lemma width_regular_eval_one : width_regular 1 2 1 = 2 := by
  unfold width_regular columns_regular rows_regular
  norm_num

lemma compute_min_width_eval_one : compute_min_width 1 2 1 2 = some 2 := by
  unfold compute_min_width
  rw [width_flat_eval_one, width_pointy_eval_one, width_regular_eval_one]
  norm_num

/-! ## Claim theorems -/

/-- C4: the reported winning strategy is FlatHex exactly when the FlatHex
width is strictly smaller than both others, PointyHex exactly when the
PointyHex width is strictly smaller than both others, and Grid in every
other case, including all exact ties. (The code's `else if` cannot mask
the PointyHex condition: `w_pointy < w_flat` already falsifies the FlatHex
condition.) -/
theorem reported_strategy_cases (w_flat w_pointy w_regular : ℝ) :
    (reported_strategy w_flat w_pointy w_regular = Strategy.FlatHex ↔
      w_flat < w_pointy ∧ w_flat < w_regular) ∧
    (reported_strategy w_flat w_pointy w_regular = Strategy.PointyHex ↔
      w_pointy < w_flat ∧ w_pointy < w_regular) ∧
    (reported_strategy w_flat w_pointy w_regular = Strategy.Grid ↔
      ¬(w_flat < w_pointy ∧ w_flat < w_regular) ∧
      ¬(w_pointy < w_flat ∧ w_pointy < w_regular)) := by
  unfold reported_strategy
  split_ifs with h1 h2
  · refine ⟨by simp [h1], ?_, ?_⟩
    · simp only [iff_def]
      constructor
      · intro hcon; exact absurd hcon (by simp)
      · intro hcon; rcases h1 with ⟨ha, _⟩; rcases hcon with ⟨hb, _⟩; linarith
    · simp only [iff_def]
      constructor
      · intro hcon; exact absurd hcon (by simp)
      · intro hcon; exact absurd h1 hcon.1
  · refine ⟨by simp [h1], by simp [h2], ?_⟩
    simp only [iff_def]
    constructor
    · intro hcon; exact absurd hcon (by simp)
    · intro hcon; exact absurd h2 hcon.2
  · exact ⟨by simp [h1], by simp [h2], by simp [h1, h2]⟩

/-- C9: the Grid strategy width for a single circle is exactly `2*radius`,
whatever the height: the row count is clamped to at least `1`, and the
ceiling division `(1 + rows - 1) / rows` then yields one column. -/
theorem grid_width_single_circle (r h : ℝ) (hr : 0 < r) (hh : 0 < h) :
    width_regular r h 1 = 2 * r := by
  have hrows : 1 ≤ rows_regular r h := by
    unfold rows_regular
    split_ifs with hlt <;> omega
  unfold width_regular columns_regular
  rw [show (1 : ℤ) + rows_regular r h - 1 = rows_regular r h by ring,
    Int.tdiv_self (by omega)]
  norm_num

/-- C9 witness at `radius = 1`, `height = 1` (height smaller than one
diameter, so the clamp fires). -/
theorem grid_width_single_circle_witness :
    0 < (1 : ℝ) ∧ width_regular 1 1 1 = 2 * 1 :=
  ⟨by norm_num, grid_width_single_circle 1 1 (by norm_num) (by norm_num)⟩

/-- C3: at `radius = 1`, `height = 1`, `count = 1` the flat-topped row
count is structurally zero and the Width Solver's growth loop never
terminates: there is no iteration or width cap, no infeasibility error,
and every amount of fuel is exhausted (the C code loops forever). -/
theorem solver_diverges_on_zero_rows :
    rows_flat 1 1 = 0 ∧ ∀ fuel : ℕ, compute_min_width 1 1 1 fuel = none := by
  have hrows : rows_flat 1 1 = 0 := by
    unfold rows_flat
    norm_num
  refine ⟨hrows, fun fuel => ?_⟩
  have hflat : width_flat 1 1 1 fuel = none := by
    unfold width_flat
    rw [hrows]
    exact flat_loop_none 1 0 1 (by omega) (by omega) fuel 0
  unfold compute_min_width
  rw [hflat]

/-- C8: the Width Solver performs no input validation. At `radius = 1`,
`height = 36`, `count = 0` it runs the full computation and returns width
`0` (both growth loops exit immediately and the grid ceiling division
gives `17 tdiv 18 = 0` columns) instead of rejecting the input. -/
theorem solver_accepts_nonpositive_count :
    compute_min_width 1 36 0 1 = some 0 ∧ width_regular 1 36 0 = 0 := by
  have hflat : width_flat 1 36 0 1 = some 0 := by
    unfold width_flat
    rw [flat_loop, if_neg (by omega)]
  have hpointy : width_pointy 1 36 0 1 = some 2 := by
    unfold width_pointy
    rw [pointy_loop, if_neg (by omega)]
    unfold width_pointy_of
    norm_num
  have hreg : width_regular 1 36 0 = 0 := by
    have h17 : Int.tdiv 17 18 = 0 := by decide
    unfold width_regular columns_regular rows_regular
    norm_num [h17]
  refine ⟨?_, hreg⟩
  unfold compute_min_width
  rw [hflat, hpointy, hreg]
  norm_num

/-- C1: whenever the Width Solver returns a width for a valid input, that
width is exactly the minimum of the three independently-computed strategy
widths: the flat-hex width (the width at the first loop iteration whose
capacity reaches `count`), the pointy-hex width (determined by the first
column count whose capacity reaches `count`), and the grid width. -/
theorem solver_width_min_of_strategies (r h : ℝ) (n : ℤ) (fuel : ℕ) (w : ℝ)
    (hr : 0 < r) (hh : 0 < h) (hn : 1 ≤ n)
    (hrun : compute_min_width r h n fuel = some w) :
    w = min (min (flat_width_min r h n) (pointy_width_min r h n))
      (width_regular r h n) := by
  unfold compute_min_width at hrun
  cases hf : width_flat r h n fuel with
  | none =>
      rw [hf] at hrun
      exact Option.noConfusion hrun
  | some wf =>
      cases hp : width_pointy r h n fuel with
      | none =>
          rw [hf, hp] at hrun
          exact Option.noConfusion hrun
      | some wp =>
          rw [hf, hp, Option.some.injEq] at hrun
          rw [← hrun, width_flat_eq_min r h n hn fuel wf hf,
            width_pointy_eq_min r h n hn fuel wp hp]

/-- C1 witness at `radius = 1`, `height = 2`, `count = 1`: the solver
returns `2`, the minimum of the three strategy widths. -/
theorem solver_width_min_of_strategies_witness :
    compute_min_width 1 2 1 2 = some 2 ∧
    (2 : ℝ) = min (min (flat_width_min 1 2 1) (pointy_width_min 1 2 1))
      (width_regular 1 2 1) :=
  ⟨compute_min_width_eval_one,
    solver_width_min_of_strategies 1 2 1 2 2 (by norm_num) (by norm_num) (by norm_num)
      compute_min_width_eval_one⟩

/-- C2 counterexample at `radius = 1`, `height = 2`, `count = 2`. Here
`rows_pointy = 1`, and by the claim's own capacity rule the capacity first
reaches `count = 2` at `columns = 3` (capacities `1, 1, 2`). The claim's
formula `2*radius + (columns - 2)*radius*sqrt 3` predicts `2 + sqrt 3`, but
the code (which increments `columns_pointy` once more before exiting)
returns `2 + 2*sqrt 3`. -/
theorem pointy_width_formula_counterexample :
    total_circles_pointy (rows_pointy 1 2) 1 < 2 ∧
    total_circles_pointy (rows_pointy 1 2) 2 < 2 ∧
    2 ≤ total_circles_pointy (rows_pointy 1 2) 3 ∧
    width_pointy 1 2 2 4 = some (2 + 2 * Real.sqrt 3) ∧
    2 + 2 * Real.sqrt 3 ≠ 2 * 1 + ((3 : ℝ) - 2) * 1 * Real.sqrt 3 := by
  have hrp := rows_pointy_one_two
  have hc1 : total_circles_pointy 1 1 = 1 := by
    simpa using total_circles_pointy_one 1 (by norm_num)
  have hc2 : total_circles_pointy 1 2 = 1 := by
    simpa using total_circles_pointy_one 2 (by norm_num)
  have hc3 : total_circles_pointy 1 3 = 2 := by
    simpa using total_circles_pointy_one 3 (by norm_num)
  refine ⟨by rw [hrp, hc1]; omega, by rw [hrp, hc2]; omega, by rw [hrp, hc3], ?_, ?_⟩
  · unfold width_pointy
    rw [hrp]
    rw [pointy_loop, if_pos (by omega), hc1]
    rw [pointy_loop, if_pos (by omega), hc2]
    rw [pointy_loop, if_pos (by omega), hc3]
    rw [pointy_loop, if_neg (by omega)]
    unfold width_pointy_of
    norm_num
  · have h3 := sqrt3_pos
    intro hcon
    nlinarith

/-- C2 as amended: with `K` the column count at which the pointy capacity
first reaches `count`, the loop exits with `columns_pointy = K + 1` and the
returned width is `2*radius` when only one column was needed and
`2*radius + (K - 1)*radius*sqrt 3` otherwise — one more `radius*sqrt 3`
step than the claim's `(K - 2)` formula. -/
theorem pointy_width_formula_amended (r h : ℝ) (n : ℤ) (K : ℕ)
    (hr : 0 < r) (hh : 0 < h) (hn : 1 ≤ n) (hK1 : 1 ≤ K)
    (hKcap : n ≤ total_circles_pointy (rows_pointy r h) K)
    (hKmin : ∀ c : ℕ, 1 ≤ c → c < K → total_circles_pointy (rows_pointy r h) c < n) :
    ∃ fuel, width_pointy r h n fuel =
      some (if K = 1 then 2 * r else 2 * r + ((K : ℝ) - 1) * r * Real.sqrt 3) := by
  refine ⟨K + 1, ?_⟩
  have hloop : pointy_loop (rows_pointy r h) n (K + 1) 1 0 = some (K + 1) := by
    rw [show (1 : ℕ) = 0 + 1 from rfl]
    exact pointy_loop_run (rows_pointy r h) n K hKcap hKmin (K + 1) 0 0
      (by omega) (by omega) (by omega)
  unfold width_pointy
  rw [hloop, Option.map_some']
  congr 1
  unfold width_pointy_of
  rw [if_neg (by omega)]
  by_cases hK : K = 1
  · subst hK
    norm_num
  · rw [if_neg hK]
    push_cast
    ring

/-- C2 amended witness at `radius = 1`, `height = 2`, `count = 1`: one
column suffices (`K = 1`) and the returned width is `2*radius = 2`. -/
theorem pointy_width_formula_amended_witness :
    1 ≤ total_circles_pointy (rows_pointy 1 2) 1 ∧
    ∃ fuel, width_pointy 1 2 1 fuel =
      some (if (1 : ℕ) = 1 then 2 * 1 else 2 * 1 + ((1 : ℝ) - 1) * 1 * Real.sqrt 3) :=
  ⟨by rw [rows_pointy_one_two]; simpa using (total_circles_pointy_one 1 (by norm_num)).le,
    pointy_width_formula_amended 1 2 1 1 (by norm_num) (by norm_num) (by norm_num)
      (by norm_num)
      (by rw [rows_pointy_one_two]
          simpa using (total_circles_pointy_one 1 (by norm_num)).ge)
      (fun c hc1 hc2 => absurd (lt_of_le_of_lt hc1 hc2) (by omega))⟩

/-- C10: when a hex strategy's computed row count is at least 1, its
growth loop terminates on its own — the capacity grows without bound (at
least `k` circles after `k` flat iterations, at least `m` circles in `2*m`
pointy columns), so some amount of fuel suffices; the code needs no
iteration or width cap for such inputs. -/
theorem growth_loops_terminate (r h : ℝ) (n : ℤ) (hr : 0 < r) (hn : 1 ≤ n) :
    (1 ≤ rows_flat r h →
      (∀ k : ℕ, 1 ≤ k →
        (k : ℤ) ≤ total_circles_flat r (rows_flat r h) (2 * r * (k : ℝ))) ∧
      ∃ fuel w, width_flat r h n fuel = some w) ∧
    (1 ≤ rows_pointy r h →
      (∀ m : ℕ, (m : ℤ) ≤ total_circles_pointy (rows_pointy r h) (2 * m)) ∧
      ∃ fuel c, pointy_loop (rows_pointy r h) n fuel 1 0 = some c) := by
  constructor
  · intro hrows
    exact ⟨fun k hk => total_circles_flat_lower r hr (rows_flat r h) hrows k hk,
      width_flat_terminates r h n hr hn hrows⟩
  · intro hrows
    exact ⟨fun m => total_circles_pointy_lower (rows_pointy r h) hrows m,
      pointy_loop_terminates r h n hn hrows⟩

/-- C10 witness at `radius = 1`, `height = 2`, `count = 1`: both row
counts are 1 and both loops terminate. -/
theorem growth_loops_terminate_witness :
    (∃ fuel w, width_flat 1 2 1 fuel = some w) ∧
    ∃ fuel c, pointy_loop (rows_pointy 1 2) 1 fuel 1 0 = some c :=
  ⟨((growth_loops_terminate 1 2 1 (by norm_num) (by norm_num)).1
      (by rw [rows_flat_one_two])).2,
    ((growth_loops_terminate 1 2 1 (by norm_num) (by norm_num)).2
      (by rw [rows_pointy_one_two])).2⟩

/-! ## Strip Splitter lemmas -/

lemma floor_div_pos_of_lt (cap w : ℝ) (hcap : 0 < cap) (hcw : cap < w) :
    (1 : ℤ) ≤ ⌊w / cap⌋ :=
  Int.le_floor.mpr (by rw [le_div_iff hcap]; push_cast; linarith)

lemma floor_div_mul_le (cap w : ℝ) (hcap : 0 < cap) :
    (⌊w / cap⌋ : ℝ) * cap ≤ w := by
  have h := Int.floor_le (w / cap)
  calc (⌊w / cap⌋ : ℝ) * cap ≤ (w / cap) * cap := by nlinarith
    _ = w := by field_simp

lemma lt_floor_div_succ_mul (cap w : ℝ) (hcap : 0 < cap) :
    w < ((⌊w / cap⌋ : ℝ) + 1) * cap := by
  have h := Int.lt_floor_add_one (w / cap)
  calc w = (w / cap) * cap := by field_simp
    _ < ((⌊w / cap⌋ : ℝ) + 1) * cap := by nlinarith

lemma floor_div_toNat_cast (cap w : ℝ) (hcap : 0 < cap) (hcw : cap < w) :
    ((⌊w / cap⌋.toNat : ℕ) : ℝ) = ((⌊w / cap⌋ : ℤ) : ℝ) := by
  have h1 := floor_div_pos_of_lt cap w hcap hcw
  have h0 : ((⌊w / cap⌋.toNat : ℕ) : ℤ) = ⌊w / cap⌋ := Int.toNat_of_nonneg (by omega)
  calc ((⌊w / cap⌋.toNat : ℕ) : ℝ) = (((⌊w / cap⌋.toNat : ℕ) : ℤ) : ℝ) := by push_cast; ring
    _ = ((⌊w / cap⌋ : ℤ) : ℝ) := by rw [h0]

/-- The emitted strip sizes of one split sum back to the original width. -/
lemma split_width_sum (cap w : ℝ) (hcap : 0 < cap) : (split_width cap w).sum = w := by
  unfold split_width
  by_cases hcw : w > cap
  · rw [if_pos hcw]
    have hsum_rep : (List.replicate (⌊w / cap⌋.toNat) cap).sum = (⌊w / cap⌋ : ℝ) * cap := by
      rw [List.sum_replicate, nsmul_eq_mul, floor_div_toNat_cast cap w hcap hcw]
    by_cases hrem : w - (⌊w / cap⌋ : ℝ) * cap > 0
    · rw [if_pos hrem, List.sum_append, hsum_rep]
      simp only [List.sum_cons, List.sum_nil]
      ring
    · rw [if_neg hrem, List.append_nil, hsum_rep]
      have hge := floor_div_mul_le cap w hcap
      have : w - (⌊w / cap⌋ : ℝ) * cap = 0 := le_antisymm (by linarith [not_lt.mp hrem]) (by linarith)
      linarith
  · rw [if_neg hcw, List.sum_cons, List.sum_nil]
    ring

/-- Every emitted strip size is strictly positive and at most the capacity. -/
lemma split_width_mem (cap w : ℝ) (hcap : 0 < cap) (hw : 0 < w) :
    ∀ s ∈ split_width cap w, 0 < s ∧ s ≤ cap := by
  intro s hs
  unfold split_width at hs
  by_cases hcw : w > cap
  · rw [if_pos hcw] at hs
    rcases List.mem_append.mp hs with hs | hs
    · rw [List.eq_of_mem_replicate hs]
      exact ⟨hcap, le_refl cap⟩
    · by_cases hrem : w - (⌊w / cap⌋ : ℝ) * cap > 0
      · rw [if_pos hrem, List.mem_singleton] at hs
        subst hs
        have hlt := lt_floor_div_succ_mul cap w hcap
        exact ⟨hrem, by nlinarith⟩
      · rw [if_neg hrem] at hs
        exact absurd hs (List.not_mem_nil s)
  · rw [if_neg hcw, List.mem_singleton] at hs
    subst hs
    exact ⟨hw, not_lt.mp hcw⟩

/-- `adjust_best_widths` emits, in input order, each width's split pieces
consecutively: it is exactly the concatenation of the per-width splits. -/
lemma adjust_best_widths_eq_bind (cap : ℝ) :
    ∀ ws : List ℝ, adjust_best_widths cap ws = ws.bind (split_width cap) := by
  intro ws
  induction ws with
  | nil => rfl
  | cons x xs ih => simp only [adjust_best_widths, List.cons_bind, ih]

/-- C5: for `w > 0` and capacity `C > 0` the Strip Splitter emits, when
`w > C`, exactly `floor(w/C)` strips of size `C` followed by one strip of
size `w - floor(w/C)*C` exactly when that remainder is positive, and emits
`w` unchanged when `w ≤ C`; the emitted sizes sum to `w` exactly, each is
positive and at most `C`, and the whole pass concatenates each input
width's pieces in input order. -/
theorem strip_splitter_exact (cap w : ℝ) (hcap : 0 < cap) (hw : 0 < w) :
    (split_width cap w).sum = w ∧
    (∀ s ∈ split_width cap w, 0 < s ∧ s ≤ cap) ∧
    (cap < w → split_width cap w =
      List.replicate (⌊w / cap⌋.toNat) cap ++
        (if w - (⌊w / cap⌋ : ℝ) * cap > 0 then [w - (⌊w / cap⌋ : ℝ) * cap] else [])) ∧
    (w ≤ cap → split_width cap w = [w]) ∧
    (∀ ws : List ℝ, adjust_best_widths cap ws = ws.bind (split_width cap)) := by
  refine ⟨split_width_sum cap w hcap, split_width_mem cap w hcap hw, ?_, ?_,
    adjust_best_widths_eq_bind cap⟩
  · intro hcw
    unfold split_width
    rw [if_pos hcw]
  · intro hwc
    unfold split_width
    rw [if_neg (not_lt.mpr hwc)]

/-- C5 witness at `C = 360`, `w = 750` (the spec's splitter scenario
shape): sum preserved and every piece in `(0, 360]`. -/
theorem strip_splitter_exact_witness :
    (split_width 360 750).sum = 750 ∧
    ∀ s ∈ split_width 360 750, 0 < s ∧ s ≤ 360 :=
  ⟨(strip_splitter_exact 360 750 (by norm_num) (by norm_num)).1,
    (strip_splitter_exact 360 750 (by norm_num) (by norm_num)).2.1⟩

/-! ## Strip Binner lemmas -/

/-- Placing one strip of size `s ≤ cap` preserves the rectangle invariant
`remaining = cap - sum contents ∧ 0 ≤ remaining`: an existing rectangle is
only used when `remaining ≥ s`, and a fresh rectangle starts at
`cap - s ≥ 0`. -/
lemma place_strip_invariant (cap s : ℝ) (hs : s ≤ cap) :
    ∀ rects : List Rect,
      (∀ rect ∈ rects, rect.remaining = cap - rect.contents.sum ∧ 0 ≤ rect.remaining) →
      ∀ rect ∈ place_strip cap rects s,
        rect.remaining = cap - rect.contents.sum ∧ 0 ≤ rect.remaining := by
  intro rects
  induction rects with
  | nil =>
      intro _ rect hrect
      simp only [place_strip, List.mem_singleton] at hrect
      subst hrect
      constructor
      · simp
      · simp only
        linarith
  | cons r0 rs ih =>
      intro hinv rect hrect
      rw [place_strip] at hrect
      by_cases hfit : r0.remaining ≥ s
      · rw [if_pos hfit] at hrect
        rcases List.mem_cons.mp hrect with hrect | hrect
        · subst hrect
          have h0 := hinv r0 (List.mem_cons_self r0 rs)
          constructor
          · simp only [List.sum_append, List.sum_cons, List.sum_nil]
            rw [h0.1]
            ring
          · simp only
            have := h0.1
            linarith
        · exact hinv rect (List.mem_cons_of_mem r0 hrect)
      · rw [if_neg hfit] at hrect
        rcases List.mem_cons.mp hrect with hrect | hrect
        · subst hrect
          exact hinv rect (List.mem_cons_self rect rs)
        · exact ih (fun q hq => hinv q (List.mem_cons_of_mem r0 hq)) rect hrect

/-- Placing one strip adds exactly that strip to the placed contents: no
strip is dropped or duplicated. -/
lemma place_strip_contents (cap s : ℝ) :
    ∀ rects : List Rect,
      ((place_strip cap rects s).bind Rect.contents).Perm
        ((rects.bind Rect.contents) ++ [s]) := by
  intro rects
  induction rects with
  | nil =>
      simp [place_strip]
  | cons r0 rs ih =>
      rw [place_strip]
      by_cases hfit : r0.remaining ≥ s
      · rw [if_pos hfit]
        simp only [List.cons_bind, List.append_assoc]
        exact List.Perm.append_left r0.contents List.perm_append_comm
      · rw [if_neg hfit]
        simp only [List.cons_bind, List.append_assoc]
        exact List.Perm.append_left r0.contents ih

/-- First-fit placement of a strip list preserves the rectangle invariant. -/
lemma foldl_place_invariant (cap : ℝ) :
    ∀ (l : List ℝ) (acc : List Rect),
      (∀ s ∈ l, s ≤ cap) →
      (∀ rect ∈ acc, rect.remaining = cap - rect.contents.sum ∧ 0 ≤ rect.remaining) →
      ∀ rect ∈ l.foldl (place_strip cap) acc,
        rect.remaining = cap - rect.contents.sum ∧ 0 ≤ rect.remaining := by
  intro l
  induction l with
  | nil => intro acc _ hacc; exact hacc
  | cons s l ih =>
      intro acc hl hacc
      rw [List.foldl_cons]
      exact ih (place_strip cap acc s)
        (fun x hx => hl x (List.mem_cons_of_mem s hx))
        (place_strip_invariant cap s (hl s (List.mem_cons_self s l)) acc hacc)

/-- First-fit placement of a strip list appends exactly that list to the
placed contents, up to permutation. -/
lemma foldl_place_contents (cap : ℝ) :
    ∀ (l : List ℝ) (acc : List Rect),
      ((l.foldl (place_strip cap) acc).bind Rect.contents).Perm
        ((acc.bind Rect.contents) ++ l) := by
  intro l
  induction l with
  | nil => intro acc; simp
  | cons s l ih =>
      intro acc
      rw [List.foldl_cons]
      refine (ih (place_strip cap acc s)).trans ?_
      refine ((place_strip_contents cap s acc).append_right l).trans ?_
      rw [List.append_assoc, List.singleton_append]

/-- C6: with every input strip at most the capacity, after every step of
the Strip Binner (i.e. after first-fit-placing any prefix of the
descending-sorted strips) every large rectangle satisfies
`remaining = capacity - sum(contents)` and `remaining ≥ 0`, and the
multiset of all placed strips equals the input multiset. -/
theorem binner_invariants (cap : ℝ) (strips : List ℝ)
    (hle : ∀ s ∈ strips, s ≤ cap) :
    (∀ j : ℕ, ∀ rect ∈ ((sort_desc strips).take j).foldl (place_strip cap) [],
      rect.remaining = cap - rect.contents.sum ∧ 0 ≤ rect.remaining) ∧
    ((pack_rectangles cap strips).bind Rect.contents).Perm strips := by
  have hsortmem : ∀ s ∈ sort_desc strips, s ≤ cap := fun s hs =>
    hle s ((List.perm_insertionSort (· ≥ ·) strips).mem_iff.mp hs)
  constructor
  · intro j rect hrect
    refine foldl_place_invariant cap ((sort_desc strips).take j) [] ?_ (by simp) rect hrect
    intro s hs
    exact hsortmem s (List.mem_of_mem_take hs)
  · unfold pack_rectangles
    have h1 := foldl_place_contents cap (sort_desc strips) []
    simp only [List.nil_bind, List.nil_append] at h1
    exact h1.trans (List.perm_insertionSort (· ≥ ·) strips)

/-- C6 witness with strips `[100, 50]` and capacity `360`. -/
theorem binner_invariants_witness :
    (∀ j : ℕ, ∀ rect ∈ ((sort_desc [100, 50]).take j).foldl (place_strip 360) [],
      rect.remaining = 360 - rect.contents.sum ∧ 0 ≤ rect.remaining) ∧
    ((pack_rectangles 360 [100, 50]).bind Rect.contents).Perm [100, 50] :=
  binner_invariants 360 [100, 50] (by
    intro s hs
    rcases List.mem_cons.mp hs with rfl | hs
    · norm_num
    · rcases List.mem_cons.mp hs with rfl | hs
      · norm_num
      · exact absurd hs (List.not_mem_nil s))

/-- C7: on strips `[360, 360, 30, 72, 18]` with capacity `360` the Strip
Binner sorts descending to `[360, 360, 72, 30, 18]` and produces exactly 3
rectangles with contents `[360]`, `[360]`, `[72, 30, 18]` in placement
order, total waste `240`, and waste percentage `240/(3*360)*100`. -/
theorem binner_scenario :
    sort_desc [360, 360, 30, 72, 18] = [360, 360, 72, 30, 18] ∧
    (pack_rectangles 360 [360, 360, 30, 72, 18]).map Rect.contents =
      [[360], [360], [72, 30, 18]] ∧
    (pack_rectangles 360 [360, 360, 30, 72, 18]).length = 3 ∧
    total_waste (pack_rectangles 360 [360, 360, 30, 72, 18]) = 240 ∧
    waste_percent 360 (pack_rectangles 360 [360, 360, 30, 72, 18]) =
      240 / (3 * 360) * 100 := by
  have hsort : sort_desc [360, 360, 30, 72, 18] = [(360 : ℝ), 360, 72, 30, 18] := by
    norm_num [sort_desc, List.insertionSort, List.orderedInsert]
  have hpack : pack_rectangles 360 [360, 360, 30, 72, 18] =
      [⟨[360], 0⟩, ⟨[360], 0⟩, ⟨[72, 30, 18], 240⟩] := by
    unfold pack_rectangles
    rw [hsort]
    norm_num [List.foldl, place_strip, Rect.mk.injEq]
  refine ⟨hsort, ?_, ?_, ?_, ?_⟩ <;> rw [hpack]
  · rfl
  · rfl
  · norm_num [total_waste]
  · norm_num [waste_percent, total_waste]

end VP
